import Mathlib

/- Verification development for the Hug SCM Python utilities.

   The repository consists of small Python scripts around the git CLI.  This
   file gives a shallow embedding in Lean 4 of the pure computational cores of
   co_changes.py, ownership.py, git/worktree.py, deps.py and the MCP server
   modules (tool_handlers.py, command_executor.py), and proves theorems about
   the embedded definitions.

   Modelling conventions:
   - Python strings are modelled as lists of characters (List Char), so that
     all definitions are computable and kernel-evaluable; str.strip, str.split
     and str.startswith are modelled by the corresponding char-list functions.
   - Python dicts (and defaultdicts) are modelled as association lists that
     preserve insertion order, exactly as CPython dicts do.
   - Python sets are modelled as duplicate-free lists built by insert-if-absent.
   - Python floats are modelled by the exact rationals (and, for the one
     transcendental formula, by the real numbers).
   - Subprocess results are passed in as explicit parameters or outcome values.
-/

/-- A Python string, modelled as its list of characters. -/
abbrev Str := List Char

/-- Coerce a Lean string literal to the char-list model. -/
def str (s : String) : Str := s.data

/-- Python str.strip(): drop whitespace from both ends.  Mirrors the calls to
.strip() in the Python sources. -/
def strip (s : Str) : Str :=
  ((((s : List Char).dropWhile Char.isWhitespace).reverse.dropWhile
      Char.isWhitespace).reverse : List Char)

/-- Python str.split(sep) for a single-character separator: always returns at
least one piece, pieces may be empty.  Mirrors stdin_input.split("\n"). -/
def splitOnChar (c : Char) : List Char → List Str
  | [] => [([] : List Char)]
  | x :: xs =>
    if x = c then ([] : List Char) :: splitOnChar c xs
    else
      match splitOnChar c xs with
      | [] => [[x]]
      | p :: ps => (x :: p) :: ps

/-- Insertion-ordered dict bump: `m[k] += 1` on a defaultdict(int), modelled on
an association list (new keys are appended, as CPython dicts preserve
insertion order). -/
def bump {α : Type} [DecidableEq α] : List (α × Nat) → α → List (α × Nat)
  | [], k => [(k, 1)]
  | (k0, n) :: rest, k =>
    if k0 = k then (k0, n + 1) :: rest else (k0, n) :: bump rest k

/-- Dict lookup with default: `m.get(k, d)` (and plain `m[k]` where the key is
known to be present). -/
def lookup {α β : Type} [DecidableEq α] (m : List (α × β)) (k : α) (d : β) : β :=
  match m with
  | [] => d
  | (k0, v) :: rest => if k0 = k then v else lookup rest k d

/-- Python set.add on a list model: insert if absent (preserves the
no-duplicates invariant of a set). -/
def setAdd (s : List Str) (x : Str) : List Str :=
  if x ∈ s then s else s ++ [x]

namespace CoChanges

/- ===== co_changes.py ===== -/

/-- The check `len(line) == 40 and all(c in "0123456789abcdef" for c in line)`
from parse_git_log in co_changes.py. -/
def isCommitHash (line : Str) : Bool :=
  (line : List Char).length == 40 &&
    (line : List Char).all (fun c => (str "0123456789abcdef").contains c)

/-- The loop body of parse_git_log: walks the stripped lines, accumulating the
current file set, flushing it on blank lines and commit-hash lines. -/
def parseLines (current : List Str) : List Str → List (List Str)
  | [] => if current.isEmpty then [] else [current]
  | l :: ls =>
    let line := strip l
    if line = ([] : List Char) then
      if current.isEmpty then parseLines current ls
      else current :: parseLines [] ls
    else if isCommitHash line then
      if current.isEmpty then parseLines current ls
      else current :: parseLines [] ls
    else
      parseLines (setAdd current line) ls

/-- co_changes.parse_git_log: parse `git log --name-only` output into a list of
per-commit file sets (here: duplicate-free lists). -/
def parse_git_log (stdin_input : Str) : List (List Str) :=
  parseLines [] (splitOnChar '\n' (strip stdin_input))

/-- Python sorted([a, b]) on two strings (lexicographic by code point). -/
def strLe : List Char → List Char → Bool
  | [], _ => true
  | _ :: _, [] => false
  | x :: xs, y :: ys =>
    if x < y then true
    else if y < x then false
    else strLe xs ys

/-- The `file_a, file_b = sorted([files[i], files[j]])` step of
build_co_occurrence_matrix. -/
def sortPair (a b : Str) : Str × Str :=
  if strLe a b then (a, b) else (b, a)

/-- The double loop `for i in range(len(files)): for j in range(i+1, ...)`
over one commit, yielding each unordered pair once, sorted. -/
def commitPairs : List Str → List (Str × Str)
  | [] => []
  | f :: rest => rest.map (fun g => sortPair f g) ++ commitPairs rest

/-- co_changes.build_co_occurrence_matrix: returns the pair co-occurrence
counts (the nested dict flattened to sorted-pair keys, insertion-ordered) and
the per-file change counts. -/
def build_co_occurrence_matrix (commits : List (List Str)) :
    List ((Str × Str) × Nat) × List (Str × Nat) :=
  commits.foldl
    (fun acc file_set =>
      let file_counts := file_set.foldl (fun fc f => bump fc f) acc.2
      let co_matrix := (commitPairs file_set).foldl (fun m p => bump m p) acc.1
      (co_matrix, file_counts))
    (([] : List ((Str × Str) × Nat)), ([] : List (Str × Nat)))

/-- One output record of calculate_correlations. -/
structure CorrRec where
  file_a : Str
  file_b : Str
  correlation : ℚ
  co_changes : Nat
  changes_a : Nat
  changes_b : Nat
deriving DecidableEq, Inhabited

/-- co_changes.calculate_correlations: correlation = co_count / min(count_a,
count_b), keep pairs at or above the threshold, sort by correlation
descending (Python list.sort with reverse=True). -/
def calculate_correlations (co_matrix : List ((Str × Str) × Nat))
    (file_counts : List (Str × Nat)) (threshold : ℚ) : List CorrRec :=
  let correlations := co_matrix.filterMap (fun e =>
    let count_a := lookup file_counts e.1.1 0
    let count_b := lookup file_counts e.1.2 0
    let correlation : ℚ := (e.2 : ℚ) / ((min count_a count_b : Nat) : ℚ)
    if threshold ≤ correlation then
      some ⟨e.1.1, e.1.2, correlation, e.2, count_a, count_b⟩
    else none)
  List.insertionSort (fun x y => y.correlation ≤ x.correlation) correlations

/-- The exit-code skeleton of co_changes.main: 1 when stdin is empty or
whitespace-only, 1 when parsing yields no commits, otherwise 0 (the remaining
body only formats and prints). -/
def mainExit (stdin_input : Str) : Nat :=
  if strip stdin_input = ([] : List Char) then 1
  else if (parse_git_log stdin_input).isEmpty then 1
  else 0

end CoChanges

namespace Ownership

/- ===== ownership.py ===== -/

/-- ownership.calculate_recency_weight: exp(-days_ago / decay_days).  The
Python implementation evaluates this formula in double precision; the
embedding uses the exact real value. -/
noncomputable def calculate_recency_weight (days_ago decay_days : ℝ) : ℝ :=
  Real.exp (-days_ago / decay_days)

/-- One parsed commit record of get_file_commit_history, restricted to the
fields calculate_file_ownership reads. -/
structure Commit where
  author : Str
  days_ago : Int
deriving DecidableEq, Inhabited

/-- One value of the author_data defaultdict in calculate_file_ownership.
none models the initial last_commit_days = float("inf"). -/
structure AuthorData where
  raw_commits : Nat
  weighted_score : ℚ
  last_commit_days : Option Int
deriving DecidableEq, Inhabited

/-- The per-commit update of an author_data entry: raw_commits += 1,
weighted_score += calculate_recency_weight(days_ago, decay_days),
last_commit_days = min(last_commit_days, days_ago).  The recency weight,
whose exact value is transcendental, is passed in as the rational-valued
parameter w; the theorems below quantify over every w. -/
def updateAuthor (w : Int → ℚ) (days_ago : Int) (d : AuthorData) : AuthorData :=
  { raw_commits := d.raw_commits + 1
    weighted_score := d.weighted_score + w days_ago
    last_commit_days := some (match d.last_commit_days with
      | none => days_ago
      | some x => min x days_ago) }

/-- defaultdict access-and-update on the insertion-ordered association-list
model: apply f to the entry of the key, appending the default entry first
when the key is absent. -/
def upsert (f : AuthorData → AuthorData) :
    List (Str × AuthorData) → Str → List (Str × AuthorData)
  | [], a => [(a, f ⟨0, 0, none⟩)]
  | (a0, d) :: rest, a =>
    if a0 = a then (a0, f d) :: rest else (a0, d) :: upsert f rest a

/-- The author_data accumulation loop of calculate_file_ownership. -/
def authorData (w : Int → ℚ) (commits : List Commit) :
    List (Str × AuthorData) :=
  commits.foldl (fun m c => upsert (updateAuthor w c.days_ago) m c.author) []

/-- One output record of calculate_file_ownership. -/
structure OwnershipRec where
  author : Str
  raw_commits : Nat
  weighted_score : ℚ
  ownership_pct : ℚ
  classification : Str
  last_commit_days : Option Int
deriving DecidableEq, Inhabited

/-- The classification chain of calculate_file_ownership. -/
def classify (pct : ℚ) : Str :=
  if 40 ≤ pct then str "primary"
  else if 20 ≤ pct then str "secondary"
  else str "historical"

/-- ownership.calculate_file_ownership: accumulate per-author data, return []
when the total weighted score is zero, otherwise emit one record per author
with ownership_pct = weighted_score / total * 100 and its classification,
sorted by ownership_pct descending (Python list.sort with reverse=True). -/
def calculate_file_ownership (w : Int → ℚ) (commits : List Commit) :
    List OwnershipRec :=
  let data := authorData w commits
  let total_weighted : ℚ := (data.map (fun p => p.2.weighted_score)).sum
  if total_weighted = 0 then []
  else
    let ownership := data.map (fun p =>
      let ownership_pct := p.2.weighted_score / total_weighted * 100
      OwnershipRec.mk p.1 p.2.raw_commits p.2.weighted_score ownership_pct
        (classify ownership_pct) p.2.last_commit_days)
    List.insertionSort (fun x y => y.ownership_pct ≤ x.ownership_pct) ownership

/-- Python truthiness of an optional string CLI argument (argparse yields
None when absent; an empty string is also falsy). -/
def truthy : Option Str → Bool
  | none => false
  | some s => !s.isEmpty

/-- The exit-code skeleton of ownership.main: author mode returns 0; with
neither author nor target it returns 1; with a target but no commits found
(the get_file_commit_history subprocess result is the commits parameter) it
returns 1; otherwise the run succeeds with 0. -/
def mainExit (author target : Option Str) (commits : List Commit) : Nat :=
  if truthy author then 0
  else if !(truthy target) then 1
  else if commits.isEmpty then 1
  else 0

end Ownership

namespace Worktree

/- ===== git/worktree.py ===== -/

/-- Python str.startswith on the char-list model. -/
def startswith (s pre : Str) : Bool := pre.isPrefixOf s

/-- worktree.WorktreeInfo. -/
structure WorktreeInfo where
  path : Str
  branch : Str
  commit : Str
  is_dirty : Bool
  is_locked : Bool
deriving DecidableEq, Inhabited

/-- The mutable parser variables current_path / current_branch /
current_commit / current_locked of parse_worktree_list. -/
structure ParseState where
  path : Str
  branch : Str
  commit : Str
  locked : Bool
deriving DecidableEq, Inhabited

/-- The initial (and post-flush reset) parser state. -/
def initState : ParseState := ⟨[], [], [], false⟩

/-- One non-blank line of the parse_worktree_list state machine: the elif
chain over "worktree ", "branch refs/heads/", "branch ", "commit " and
"locked"; unknown lines are ignored. -/
def lineStep (st : ParseState) (line : Str) : ParseState :=
  if startswith line (str "worktree ") then
    { st with path := strip (line.drop (str "worktree ").length) }
  else if startswith line (str "branch refs/heads/") then
    { st with branch := strip (line.drop (str "branch refs/heads/").length) }
  else if startswith line (str "branch ") then
    { st with branch := [] }
  else if startswith line (str "commit ") then
    { st with commit := strip (line.drop (str "commit ").length) }
  else if line = str "locked" then
    { st with locked := true }
  else st

/-- The save-if-valid step of parse_worktree_list at a block boundary: skip
states with an empty path, apply the include_main filter, shorten the commit
hash to 7 characters.  The _check_worktree_dirty subprocess call is the
parameter is_dirty. -/
def flushState (is_dirty : Str → Bool) (main_repo_path : Str)
    (include_main : Bool) (st : ParseState) : List WorktreeInfo :=
  if st.path = ([] : Str) then []
  else if include_main = false ∧ st.path = main_repo_path then []
  else [⟨st.path, st.branch, st.commit.take 7, is_dirty st.path, st.locked⟩]

/-- The main loop of parse_worktree_list over the lines, plus the final
flush after the loop.  At a blank line the whole save-and-reset body sits
inside `if current_path:`, so when the current path is empty the line does
nothing and the accumulated branch/commit/locked state survives into the
following lines; only a boundary with a non-empty path saves (subject to the
include filter, handled inside flushState) and resets the state. -/
def parseGo (is_dirty : Str → Bool) (main_repo_path : Str)
    (include_main : Bool) : ParseState → List Str → List WorktreeInfo
  | st, [] => flushState is_dirty main_repo_path include_main st
  | st, l :: ls =>
    if l = ([] : Str) then
      if st.path = ([] : Str) then
        parseGo is_dirty main_repo_path include_main st ls
      else
        flushState is_dirty main_repo_path include_main st ++
          parseGo is_dirty main_repo_path include_main initState ls
    else parseGo is_dirty main_repo_path include_main (lineStep st l) ls

/-- worktree.parse_worktree_list.  The porcelain output string is passed as
its list of lines (the Python function applies splitlines() first). -/
def parse_worktree_list (is_dirty : Str → Bool) (lines : List Str)
    (main_repo_path : Str) (include_main : Bool) : List WorktreeInfo :=
  parseGo is_dirty main_repo_path include_main initState lines

/-- Block decomposition of the claim: the lines split into blocks at blank
lines (blocks may be empty). -/
def splitBlocks : List Str → List (List Str)
  | [] => [[]]
  | l :: ls =>
    if l = ([] : Str) then ([] : List Str) :: splitBlocks ls
    else
      match splitBlocks ls with
      | [] => [[l]]
      | b :: bs => (l :: b) :: bs

/-- Path of a block, following the claim: the stripped text after
"worktree " on the last such line of the block; empty when there is none. -/
def blockPath (b : List Str) : Str :=
  match b.reverse.find? (fun l => startswith l (str "worktree ")) with
  | some l => strip (l.drop (str "worktree ").length)
  | none => []

/-- Branch of a block, following the amended claim: determined by the last
line of the block starting with "branch ": the stripped text after
"branch refs/heads/" when the line has that prefix, and empty otherwise
(detached HEAD); empty when the block has no branch line. -/
def blockBranch (b : List Str) : Str :=
  match b.reverse.find? (fun l => startswith l (str "branch ")) with
  | some l =>
    if startswith l (str "branch refs/heads/") then
      strip (l.drop (str "branch refs/heads/").length)
    else []
  | none => []

/-- Commit hash of a block, following the claim: the stripped text after
"commit " on the last such line of the block; empty when absent. -/
def blockCommit (b : List Str) : Str :=
  match b.reverse.find? (fun l => startswith l (str "commit ")) with
  | some l => strip (l.drop (str "commit ").length)
  | none => []

/-- Locked flag of a block, following the claim: the block contains a line
equal to "locked". -/
def blockLocked (b : List Str) : Bool := b.contains (str "locked")

/-- The per-block result described by the claim: one WorktreeInfo per block
with a non-empty path, excluding the main repository path unless
include_main. -/
def blockSpec (is_dirty : Str → Bool) (main_repo_path : Str)
    (include_main : Bool) (b : List Str) : List WorktreeInfo :=
  if blockPath b = ([] : Str) then []
  else if include_main = false ∧ blockPath b = main_repo_path then []
  else [⟨blockPath b, blockBranch b, (blockCommit b).take 7,
         is_dirty (blockPath b), blockLocked b⟩]

/-- The block-at-a-time description of parse_worktree_list given by the
claim. -/
def parseSpec (is_dirty : Str → Bool) (lines : List Str)
    (main_repo_path : Str) (include_main : Bool) : List WorktreeInfo :=
  (splitBlocks lines).flatMap (blockSpec is_dirty main_repo_path include_main)

/-- worktree.WorktreeList: five parallel arrays for bash consumption. -/
structure WorktreeList where
  paths : List Str
  branches : List Str
  commits : List Str
  dirty_status : List Str
  locked_status : List Str
deriving DecidableEq, Inhabited

/-- worktree.to_worktree_list: the per-field append loop producing the five
parallel arrays. -/
def to_worktree_list (worktrees : List WorktreeInfo) : WorktreeList :=
  { paths := worktrees.map (fun wt => wt.path)
    branches := worktrees.map (fun wt => wt.branch)
    commits := worktrees.map (fun wt => wt.commit)
    dirty_status :=
      worktrees.map (fun wt => if wt.is_dirty then str "true" else str "false")
    locked_status :=
      worktrees.map (fun wt => if wt.is_locked then str "true" else str "false") }

/-- worktree._bash_escape: double every backslash, then escape every single
quote, then wrap the result in single quotes. -/
def bash_escape (s : Str) : Str :=
  let s1 := s.flatMap (fun c => if c = '\\' then ['\\', '\\'] else [c])
  let s2 := s1.flatMap (fun c => if c = '\'' then ['\'', '\\', '\'', '\''] else [c])
  '\'' :: (s2 ++ ['\''])

/-- One statement of to_bash_declare: declare -a name=(values), the escaped
values joined by single spaces. -/
def declareLine (name : Str) (vals : List Str) : Str :=
  str "declare -a " ++ name ++ str "=(" ++
    List.intercalate (str " ") (vals.map bash_escape) ++ str ")"

/-- worktree.WorktreeList.to_bash_declare: the five declare -a statements
joined by newlines. -/
def to_bash_declare (wl : WorktreeList) : Str :=
  List.intercalate (str "\n")
    [declareLine (str "_wt_paths") wl.paths,
     declareLine (str "_wt_branches") wl.branches,
     declareLine (str "_wt_commits") wl.commits,
     declareLine (str "_wt_dirty_status") wl.dirty_status,
     declareLine (str "_wt_locked_status") wl.locked_status]

end Worktree

namespace Deps

/- ===== deps.py ===== -/

/-- deps.find_related_commits: count file overlaps between the target commit
and every other commit touching one of its files, keep overlaps at or above
the threshold, sort by overlap count descending.  The cached
get_commit_files_cached git query is the parameter commit_files; the
file_to_commits index maps each file to the commits that modified it. -/
def find_related_commits (commit_files : Str → List Str)
    (file_to_commits : Str → List Str) (commit_hash : Str)
    (threshold : Nat) : List (Str × Nat) :=
  let target_files := commit_files commit_hash
  if target_files.isEmpty then []
  else
    let overlap_counts := target_files.foldl
      (fun acc filepath =>
        (file_to_commits filepath).foldl
          (fun acc2 related_commit =>
            if related_commit ≠ commit_hash then bump acc2 related_commit
            else acc2)
          acc)
      []
    let related := overlap_counts.filter (fun p => threshold ≤ p.2)
    List.insertionSort (fun x y => y.2 ≤ x.2) related

/-- The `related = related[:max_results]` truncation applied to
find_related_commits inside build_dependency_graph.  (The 30-second timeout
fallback around the call is not modelled: a pure function cannot time out.) -/
def relatedTo (commit_files : Str → List Str) (file_to_commits : Str → List Str)
    (threshold max_results : Nat) (commit_hash : Str) : List (Str × Nat) :=
  (find_related_commits commit_files file_to_commits commit_hash threshold).take
    max_results

/-- The enqueue loop of build_dependency_graph: append each related commit
not yet visited, while the queue is shorter than max_commits. -/
def enqueueRelated (visited : List Str) (max_commits : Nat) (d : Nat)
    (queue : List (Str × Nat)) (related : List (Str × Nat)) :
    List (Str × Nat) :=
  related.foldl
    (fun q r =>
      if r.1 ∉ visited ∧ q.length < max_commits then q ++ [(r.1, d)] else q)
    queue

/-- The queue after one processed commit: enqueue the related commits at
depth current_depth + 1 only when current_depth < depth. -/
def nextQueue (visited : List Str) (max_commits current_depth depth : Nat)
    (rest : List (Str × Nat)) (related : List (Str × Nat)) :
    List (Str × Nat) :=
  if current_depth < depth then
    enqueueRelated visited max_commits (current_depth + 1) rest related
  else rest

theorem length_enqueueRelated_le (visited : List Str) (max_commits d : Nat)
    (related : List (Str × Nat)) :
    ∀ queue : List (Str × Nat),
      (enqueueRelated visited max_commits d queue related).length ≤
        queue.length + related.length := by
  induction related with
  | nil => intro queue; simp [enqueueRelated]
  | cons r rs ih =>
    intro queue
    show (enqueueRelated visited max_commits d _ (r :: rs)).length ≤ _
    unfold enqueueRelated
    simp only [List.foldl_cons]
    split
    · exact le_trans (ih _)
        (by simp only [List.length_append, List.length_cons, List.length_nil]
            omega)
    · exact le_trans (ih queue) (by simp only [List.length_cons]; omega)

theorem length_nextQueue_le (visited : List Str)
    (max_commits current_depth depth : Nat) (rest : List (Str × Nat))
    (related : List (Str × Nat)) :
    (nextQueue visited max_commits current_depth depth rest related).length ≤
      rest.length + related.length := by
  unfold nextQueue
  split
  · exact length_enqueueRelated_le _ _ _ _ _
  · omega

/-- The BFS loop of build_dependency_graph: pop the queue head; skip visited
commits; otherwise record the (truncated) related commits in the graph (dict
insertion order), mark the commit visited, enqueue its related commits when
still within the depth limit, and count it as processed.  The loop guard is
`while to_visit and processed < max_commits`. -/
def bfsGo (commit_files : Str → List Str) (file_to_commits : Str → List Str)
    (depth threshold max_results max_commits : Nat)
    (graph : List (Str × List (Str × Nat))) (visited : List Str)
    (queue : List (Str × Nat)) (processed : Nat) :
    List (Str × List (Str × Nat)) :=
  match queue with
  | [] => graph
  | (current, current_depth) :: rest =>
    if processed < max_commits then
      if current ∈ visited then
        bfsGo commit_files file_to_commits depth threshold max_results
          max_commits graph visited rest processed
      else
        bfsGo commit_files file_to_commits depth threshold max_results
          max_commits
          (graph ++ [(current,
            relatedTo commit_files file_to_commits threshold max_results
              current)])
          (current :: visited)
          (nextQueue (current :: visited) max_commits current_depth depth rest
            (relatedTo commit_files file_to_commits threshold max_results
              current))
          (processed + 1)
    else graph
termination_by (max_commits - processed) * (max_results + 1) + queue.length
decreasing_by
  · simp only [List.length_cons]
    omega
  · have h1 : (nextQueue (current :: visited) max_commits current_depth depth
        rest (relatedTo commit_files file_to_commits threshold max_results
          current)).length ≤
        rest.length + max_results := by
      refine le_trans (length_nextQueue_le _ _ _ _ _ _) ?_
      have h2 : (relatedTo commit_files file_to_commits threshold max_results
          current).length ≤ max_results := by
        unfold relatedTo
        exact List.length_take_le max_results _
      omega
    have h3 : max_commits - processed = (max_commits - (processed + 1)) + 1 :=
      by omega
    rw [h3, Nat.succ_mul]
    simp only [List.length_cons]
    generalize (max_commits - (processed + 1)) * (max_results + 1) = A
    omega

/-- deps.build_dependency_graph: the BFS with visited set, depth limit,
per-commit result cap and total processed-commit cap, started from the root
commit at depth 0. -/
def build_dependency_graph (commit_files : Str → List Str)
    (file_to_commits : Str → List Str) (root_commit : Str)
    (depth threshold max_results max_commits : Nat) :
    List (Str × List (Str × Nat)) :=
  bfsGo commit_files file_to_commits depth threshold max_results max_commits
    [] [] [(root_commit, 0)] 0

end Deps

namespace Mcp

/- ===== hug-scm-mcp-server: tool_handlers.py, command_executor.py ===== -/

/-- The six handler classes of tool_handlers.py, as registry values (their
handle bodies shell out through CommandExecutor and are not needed for the
registry claims). -/
inductive Handler where
  | hugHFiles
  | hugStatus
  | hugLog
  | hugBranchList
  | hugHSteps
  | hugShowDiff
deriving DecidableEq, Inhabited

/-- ToolRegistry.register: the dict assignment self._handlers[name] = handler
on the insertion-ordered association-list model. -/
def registerTool : List (String × Handler) → String → Handler →
    List (String × Handler)
  | [], name, h => [(name, h)]
  | (n0, h0) :: rest, name, h =>
    if n0 = name then (n0, h) :: rest else (n0, h0) :: registerTool rest name h

/-- ToolRegistry._register_default_handlers: the six register calls run by
the ToolRegistry constructor on the initially empty dict. -/
def defaultRegistry : List (String × Handler) :=
  registerTool
    (registerTool
      (registerTool
        (registerTool
          (registerTool (registerTool [] "hug_h_files" Handler.hugHFiles)
            "hug_status" Handler.hugStatus)
          "hug_log" Handler.hugLog)
        "hug_branch_list" Handler.hugBranchList)
      "hug_h_steps" Handler.hugHSteps)
    "hug_show_diff" Handler.hugShowDiff

/-- ToolRegistry.get_handler: self._handlers.get(name), None when absent. -/
def get_handler (reg : List (String × Handler)) (name : String) :
    Option Handler :=
  match reg with
  | [] => none
  | (n0, h) :: rest => if n0 = name then some h else get_handler rest name

/-- ToolRegistry.list_tools: list(self._handlers.keys()). -/
def list_tools (reg : List (String × Handler)) : List String :=
  reg.map (fun p => p.1)

/-- The outcome of the try block of CommandExecutor.execute, passed in
explicitly: a ValueError raised by validate_path, a completed subprocess, a
subprocess.TimeoutExpired, a FileNotFoundError (hug binary absent), or any
other exception.  Every exception execute can observe is one of these
branches, so the embedding is total over this outcome type. -/
inductive RunOutcome where
  | completed (returncode : Int) (stdout stderr : String)
  | timedOut
  | fileNotFound
  | valueError (msg : String)
  | otherError (msg : String)

/-- The result dictionary of CommandExecutor.execute; it always has exactly
the keys success, output, error and exit_code, modelled as the four fields. -/
structure ExecResult where
  success : Bool
  output : String
  error : Option String
  exit_code : Int
deriving DecidableEq, Inhabited

/-- CommandExecutor.execute: the try body on a completed subprocess, and the
four except branches.  timeout_msg stands for the interpolated
f-string "Command timed out after {self.timeout} seconds". -/
def execute (timeout_msg : String) (outcome : RunOutcome) : ExecResult :=
  match outcome with
  | RunOutcome.completed returncode stdout stderr =>
    { success := returncode == 0
      output := stdout
      error := if returncode ≠ 0 then some stderr else none
      exit_code := returncode }
  | RunOutcome.timedOut =>
    { success := false, output := "", error := some timeout_msg,
      exit_code := -1 }
  | RunOutcome.fileNotFound =>
    { success := false, output := ""
      error := some
        "Hug command not found. Please ensure Hug SCM is installed and in PATH."
      exit_code := -1 }
  | RunOutcome.valueError msg =>
    { success := false, output := "",
      error := some ("Invalid path: " ++ msg), exit_code := -1 }
  | RunOutcome.otherError msg =>
    { success := false, output := "",
      error := some ("Error executing command: " ++ msg), exit_code := -1 }

end Mcp

namespace Worktree

/-- Folding the non-blank-line state machine over one block of lines. -/
def runBlock (st : ParseState) (b : List Str) : ParseState :=
  b.foldl lineStep st

/-- parse_worktree_list rephrased block-at-a-time: run the state machine over
each block; at an inner block boundary the state is saved and reset only when
its path is non-empty (matching the `if current_path:` guard), and the final
block is flushed once at the end. -/
def blocksGo (is_dirty : Str → Bool) (main_repo_path : Str)
    (include_main : Bool) : ParseState → List (List Str) → List WorktreeInfo
  | _, [] => []
  | st, [b] => flushState is_dirty main_repo_path include_main (runBlock st b)
  | st, b :: bs =>
    if (runBlock st b).path = ([] : Str) then
      blocksGo is_dirty main_repo_path include_main (runBlock st b) bs
    else
      flushState is_dirty main_repo_path include_main (runBlock st b) ++
        blocksGo is_dirty main_repo_path include_main initState bs

end Worktree

/- ===== Theorems ===== -/

/-- C8: CommandExecutor.execute is total over every execution outcome —
completed subprocess, timeout, missing hug binary, path-validation failure or
any other exception — and the returned result (with its fixed keys success,
output, error, exit_code) always satisfies: success holds exactly when
exit_code is 0, and error is None exactly when success holds. -/
theorem Mcp.execute_success_error_invariant (timeout_msg : String)
    (outcome : Mcp.RunOutcome) :
    ((Mcp.execute timeout_msg outcome).success = true ↔
      (Mcp.execute timeout_msg outcome).exit_code = 0) ∧
    ((Mcp.execute timeout_msg outcome).error = none ↔
      (Mcp.execute timeout_msg outcome).success = true) := by
  cases outcome with
  | completed returncode stdout stderr =>
    constructor
    · simp [Mcp.execute]
    · by_cases h : returncode = 0 <;> simp [Mcp.execute, h]
  | timedOut => simp [Mcp.execute]
  | fileNotFound => simp [Mcp.execute]
  | valueError msg => simp [Mcp.execute]
  | otherError msg => simp [Mcp.execute]

/-- Witness for C8 at a concrete outcome: a completed run with exit code 0 is
a success with no error. -/
theorem Mcp.execute_success_error_invariant_witness :
    ((Mcp.execute "timed out" (Mcp.RunOutcome.completed 0 "ok" "")).success =
        true ↔
      (Mcp.execute "timed out" (Mcp.RunOutcome.completed 0 "ok" "")).exit_code =
        0) ∧
    ((Mcp.execute "timed out" (Mcp.RunOutcome.completed 0 "ok" "")).error =
        none ↔
      (Mcp.execute "timed out" (Mcp.RunOutcome.completed 0 "ok" "")).success =
        true) :=
  Mcp.execute_success_error_invariant "timed out"
    (Mcp.RunOutcome.completed 0 "ok" "")

/-- C7: after construction the ToolRegistry holds exactly the six tools
hug_h_files, hug_status, hug_log, hug_branch_list, hug_h_steps and
hug_show_diff: list_tools returns exactly these six names, and get_handler
returns a handler precisely for these names and None for every other name. -/
theorem Mcp.toolRegistry_exactly_six_tools :
    Mcp.list_tools Mcp.defaultRegistry =
      ["hug_h_files", "hug_status", "hug_log", "hug_branch_list",
       "hug_h_steps", "hug_show_diff"] ∧
    ∀ name : String,
      (Mcp.get_handler Mcp.defaultRegistry name).isSome = true ↔
        name ∈ ["hug_h_files", "hug_status", "hug_log", "hug_branch_list",
                "hug_h_steps", "hug_show_diff"] := by
  have hreg : Mcp.defaultRegistry =
      [("hug_h_files", Mcp.Handler.hugHFiles),
       ("hug_status", Mcp.Handler.hugStatus),
       ("hug_log", Mcp.Handler.hugLog),
       ("hug_branch_list", Mcp.Handler.hugBranchList),
       ("hug_h_steps", Mcp.Handler.hugHSteps),
       ("hug_show_diff", Mcp.Handler.hugShowDiff)] := rfl
  constructor
  · rw [hreg]; rfl
  · intro name
    rw [hreg]
    simp only [Mcp.get_handler, List.mem_cons, List.not_mem_nil, or_false]
    split_ifs <;> simp_all [eq_comm]

/-- Witness for C7 at concrete names: hug_status resolves to a handler and an
unregistered name does not. -/
theorem Mcp.toolRegistry_exactly_six_tools_witness :
    (Mcp.get_handler Mcp.defaultRegistry "hug_status").isSome = true ∧
    (Mcp.get_handler Mcp.defaultRegistry "hug_push").isSome ≠ true :=
  ⟨(Mcp.toolRegistry_exactly_six_tools.2 "hug_status").mpr (by simp),
   fun h => by
     have := (Mcp.toolRegistry_exactly_six_tools.2 "hug_push").mp h
     simp at this⟩

/-- C4: calculate_recency_weight returns exp(-days_ago / decay_days); it is
strictly positive everywhere, equals 1 at days_ago = 0, is strictly
decreasing in days_ago for a fixed positive decay_days, and is at most 1 for
non-negative days_ago and positive decay_days. -/
theorem Ownership.recency_weight_exponential_decay :
    (∀ days_ago decay_days : ℝ,
      Ownership.calculate_recency_weight days_ago decay_days =
        Real.exp (-days_ago / decay_days) ∧
      0 < Ownership.calculate_recency_weight days_ago decay_days) ∧
    (∀ decay_days : ℝ, Ownership.calculate_recency_weight 0 decay_days = 1) ∧
    (∀ decay_days d1 d2 : ℝ, 0 < decay_days → d1 < d2 →
      Ownership.calculate_recency_weight d2 decay_days <
        Ownership.calculate_recency_weight d1 decay_days) ∧
    (∀ days_ago decay_days : ℝ, 0 ≤ days_ago → 0 < decay_days →
      Ownership.calculate_recency_weight days_ago decay_days ≤ 1) := by
  refine ⟨fun d dd => ⟨rfl, Real.exp_pos _⟩, ?_, ?_, ?_⟩
  · intro dd
    simp [Ownership.calculate_recency_weight]
  · intro dd d1 d2 hdd h12
    unfold Ownership.calculate_recency_weight
    apply Real.exp_lt_exp.mpr
    rw [div_lt_div_iff₀ hdd hdd]
    nlinarith
  · intro d dd hd hdd
    unfold Ownership.calculate_recency_weight
    rw [Real.exp_le_one_iff]
    apply div_nonpos_of_nonpos_of_nonneg <;> linarith

/-- Witness for C4 at concrete values: the weight at one decay constant is
below the weight at zero days, which is 1, and stays within (0, 1]. -/
theorem Ownership.recency_weight_exponential_decay_witness :
    Ownership.calculate_recency_weight 1 1 <
      Ownership.calculate_recency_weight 0 1 ∧
    Ownership.calculate_recency_weight 0 1 = 1 ∧
    0 < Ownership.calculate_recency_weight 1 1 ∧
    Ownership.calculate_recency_weight 1 1 ≤ 1 :=
  ⟨Ownership.recency_weight_exponential_decay.2.2.1 1 0 1 one_pos zero_lt_one,
   Ownership.recency_weight_exponential_decay.2.1 1,
   (Ownership.recency_weight_exponential_decay.1 1 1).2,
   Ownership.recency_weight_exponential_decay.2.2.2 1 1 zero_le_one one_pos⟩

/-- C6: to_worktree_list produces five parallel arrays of identical length,
equal to the number of input worktrees, and to_bash_declare emits one
declare -a statement per array, each built from an escaped word list of that
same length. -/
theorem Worktree.parallel_arrays_and_declares
    (worktrees : List Worktree.WorktreeInfo) :
    (Worktree.to_worktree_list worktrees).paths.length = worktrees.length ∧
    (Worktree.to_worktree_list worktrees).branches.length = worktrees.length ∧
    (Worktree.to_worktree_list worktrees).commits.length = worktrees.length ∧
    (Worktree.to_worktree_list worktrees).dirty_status.length =
      worktrees.length ∧
    (Worktree.to_worktree_list worktrees).locked_status.length =
      worktrees.length ∧
    Worktree.to_bash_declare (Worktree.to_worktree_list worktrees) =
      List.intercalate (str "\n")
        [Worktree.declareLine (str "_wt_paths")
          (Worktree.to_worktree_list worktrees).paths,
         Worktree.declareLine (str "_wt_branches")
          (Worktree.to_worktree_list worktrees).branches,
         Worktree.declareLine (str "_wt_commits")
          (Worktree.to_worktree_list worktrees).commits,
         Worktree.declareLine (str "_wt_dirty_status")
          (Worktree.to_worktree_list worktrees).dirty_status,
         Worktree.declareLine (str "_wt_locked_status")
          (Worktree.to_worktree_list worktrees).locked_status] ∧
    ((Worktree.to_worktree_list worktrees).paths.map
      Worktree.bash_escape).length = worktrees.length ∧
    ((Worktree.to_worktree_list worktrees).branches.map
      Worktree.bash_escape).length = worktrees.length ∧
    ((Worktree.to_worktree_list worktrees).commits.map
      Worktree.bash_escape).length = worktrees.length ∧
    ((Worktree.to_worktree_list worktrees).dirty_status.map
      Worktree.bash_escape).length = worktrees.length ∧
    ((Worktree.to_worktree_list worktrees).locked_status.map
      Worktree.bash_escape).length = worktrees.length := by
  refine ⟨?_, ?_, ?_, ?_, ?_, rfl, ?_, ?_, ?_, ?_, ?_⟩ <;>
    simp [Worktree.to_worktree_list]

/-- Witness for C6 at a concrete worktree list of length one. -/
theorem Worktree.parallel_arrays_and_declares_witness :
    (Worktree.to_worktree_list
      [Worktree.WorktreeInfo.mk (str "/p") (str "main") (str "abc1234")
        false true]).paths.length = 1 ∧
    (Worktree.to_worktree_list
      [Worktree.WorktreeInfo.mk (str "/p") (str "main") (str "abc1234")
        false true]).locked_status.length = 1 :=
  ⟨(Worktree.parallel_arrays_and_declares _).1,
   (Worktree.parallel_arrays_and_declares _).2.2.2.2.1⟩

/-- C5: the main entry points return 1 exactly in the no-data cases and 0
otherwise: co_changes.main returns 1 iff stdin is empty or whitespace-only or
parsing yields no commits; ownership.main returns 1 iff no author is given
and either no target is given or no commits were found, and 0 otherwise. -/
theorem mainExit_codes :
    (∀ stdin_input : Str,
      (CoChanges.mainExit stdin_input = 1 ↔
        (strip stdin_input = ([] : List Char) ∨
          CoChanges.parse_git_log stdin_input = [])) ∧
      (CoChanges.mainExit stdin_input = 0 ↔
        ¬(strip stdin_input = ([] : List Char) ∨
          CoChanges.parse_git_log stdin_input = []))) ∧
    (∀ (author target : Option Str) (commits : List Ownership.Commit),
      (Ownership.mainExit author target commits = 1 ↔
        (Ownership.truthy author = false ∧
          (Ownership.truthy target = false ∨ commits = []))) ∧
      (Ownership.mainExit author target commits = 0 ↔
        ¬(Ownership.truthy author = false ∧
          (Ownership.truthy target = false ∨ commits = [])))) := by
  constructor
  · intro s
    unfold CoChanges.mainExit
    split_ifs with h1 h2 <;> simp_all [List.isEmpty_iff]
  · intro author target commits
    unfold Ownership.mainExit
    split_ifs with h1 h2 h3 <;> simp_all [List.isEmpty_iff]

/-- Witness for C5 at concrete inputs: empty stdin gives 1, a one-file log
gives 0; no target and no author gives 1, a found history gives 0. -/
theorem mainExit_codes_witness :
    CoChanges.mainExit (str "") = 1 ∧
    CoChanges.mainExit (str "a.txt") = 0 ∧
    Ownership.mainExit none none [] = 1 ∧
    Ownership.mainExit none (some (str "f.py"))
      [Ownership.Commit.mk (str "alice") 3] = 0 :=
  ⟨(mainExit_codes.1 (str "")).1.mpr (Or.inl (by decide)),
   (mainExit_codes.1 (str "a.txt")).2.mpr (by decide),
   (mainExit_codes.2 none none []).1.mpr (by decide),
   (mainExit_codes.2 none (some (str "f.py"))
     [Ownership.Commit.mk (str "alice") 3]).2.mpr (by decide)⟩

theorem setAdd_nodup {s : List Str} {x : Str} (h : s.Nodup) :
    (setAdd s x).Nodup := by
  unfold setAdd
  split_ifs with hx
  · exact h
  · rw [List.nodup_append]
    exact ⟨h, List.nodup_singleton x, by simpa using hx⟩

theorem parseLines_mem {lines : List Str} :
    ∀ {current : List Str}, current.Nodup →
      ∀ s ∈ CoChanges.parseLines current lines, s ≠ [] ∧ s.Nodup := by
  induction lines with
  | nil =>
    intro current h s hs
    unfold CoChanges.parseLines at hs
    split_ifs at hs with h0
    · simp at hs
    · rw [List.mem_singleton] at hs
      subst hs
      exact ⟨by simpa [List.isEmpty_iff] using h0, h⟩
  | cons l ls ih =>
    intro current h s hs
    simp only [CoChanges.parseLines] at hs
    by_cases hblank : strip l = ([] : List Char)
    · rw [if_pos hblank] at hs
      by_cases hcur : current.isEmpty
      · rw [if_pos hcur] at hs
        exact ih h s hs
      · rw [if_neg hcur] at hs
        rcases List.mem_cons.mp hs with rfl | hmem
        · exact ⟨by simpa [List.isEmpty_iff] using hcur, h⟩
        · exact ih List.nodup_nil s hmem
    · rw [if_neg hblank] at hs
      by_cases hhash : CoChanges.isCommitHash (strip l) = true
      · rw [if_pos hhash] at hs
        by_cases hcur : current.isEmpty
        · rw [if_pos hcur] at hs
          exact ih h s hs
        · rw [if_neg hcur] at hs
          rcases List.mem_cons.mp hs with rfl | hmem
          · exact ⟨by simpa [List.isEmpty_iff] using hcur, h⟩
          · exact ih List.nodup_nil s hmem
      · rw [if_neg hhash] at hs
        exact ih (setAdd_nodup h) s hs

/-- C10: every element of parse_git_log is a non-empty set (non-empty,
duplicate-free list) of file-path lines; a commit hash followed by no file
lines contributes no element, so commits analyzed counts only commits that
touched at least one file. -/
theorem CoChanges.parse_git_log_nonempty_sets (stdin_input : Str) :
    ∀ s ∈ CoChanges.parse_git_log stdin_input, s ≠ [] ∧ s.Nodup := by
  intro s hs
  exact parseLines_mem List.nodup_nil s hs

/-- Witness for C10: a one-file input yields that file as a non-empty set,
and an input consisting of a lone commit hash yields no commits at all. -/
theorem CoChanges.parse_git_log_nonempty_sets_witness :
    ([str "a.txt"] ∈ CoChanges.parse_git_log (str "a.txt") ∧
      [str "a.txt"] ≠ [] ∧ ([str "a.txt"] : List Str).Nodup) ∧
    CoChanges.parse_git_log
      (str "0123456789abcdef0123456789abcdef01234567") = [] :=
  ⟨⟨by decide,
    CoChanges.parse_git_log_nonempty_sets (str "a.txt") [str "a.txt"]
      (by decide)⟩,
   by decide⟩

theorem CoChanges.calculate_correlations_mem_and_sorted
    (co_matrix : List ((Str × Str) × Nat)) (file_counts : List (Str × Nat))
    (threshold : ℚ) :
    (∀ r ∈ CoChanges.calculate_correlations co_matrix file_counts threshold,
      r.changes_a = lookup file_counts r.file_a 0 ∧
      r.changes_b = lookup file_counts r.file_b 0 ∧
      ((r.file_a, r.file_b), r.co_changes) ∈ co_matrix ∧
      r.correlation =
        (r.co_changes : ℚ) / ((min r.changes_a r.changes_b : Nat) : ℚ) ∧
      threshold ≤ r.correlation) ∧
    List.Sorted (fun x y => y.correlation ≤ x.correlation)
      (CoChanges.calculate_correlations co_matrix file_counts threshold) := by
  constructor
  · intro r hr
    unfold CoChanges.calculate_correlations at hr
    rw [List.mem_insertionSort, List.mem_filterMap] at hr
    obtain ⟨e, he, hfe⟩ := hr
    dsimp only at hfe
    split at hfe
    · obtain rfl := Option.some.inj hfe
      refine ⟨rfl, rfl, ?_, rfl, ?_⟩
      · simpa using he
      · assumption
    · exact absurd hfe (by simp)
  · haveI : IsTotal CoChanges.CorrRec
        (fun x y => y.correlation ≤ x.correlation) :=
      ⟨fun a b => le_total b.correlation a.correlation⟩
    haveI : IsTrans CoChanges.CorrRec
        (fun x y => y.correlation ≤ x.correlation) :=
      ⟨fun _ _ _ hab hbc => le_trans hbc hab⟩
    exact List.sorted_insertionSort _ _

/-- C1: on the matrix and counts computed by build_co_occurrence_matrix,
every record produced by calculate_correlations has correlation equal to its
co-occurrence count divided by the minimum of the two files' change counts,
only pairs at or above the threshold are included, and the result is sorted
in non-increasing order of correlation. -/
theorem CoChanges.correlation_formula_threshold_sorted
    (commits : List (List Str)) (threshold : ℚ) :
    (∀ r ∈ CoChanges.calculate_correlations
        (CoChanges.build_co_occurrence_matrix commits).1
        (CoChanges.build_co_occurrence_matrix commits).2 threshold,
      r.changes_a =
        lookup (CoChanges.build_co_occurrence_matrix commits).2 r.file_a 0 ∧
      r.changes_b =
        lookup (CoChanges.build_co_occurrence_matrix commits).2 r.file_b 0 ∧
      ((r.file_a, r.file_b), r.co_changes) ∈
        (CoChanges.build_co_occurrence_matrix commits).1 ∧
      r.correlation =
        (r.co_changes : ℚ) / ((min r.changes_a r.changes_b : Nat) : ℚ) ∧
      threshold ≤ r.correlation) ∧
    List.Sorted (fun x y => y.correlation ≤ x.correlation)
      (CoChanges.calculate_correlations
        (CoChanges.build_co_occurrence_matrix commits).1
        (CoChanges.build_co_occurrence_matrix commits).2 threshold) :=
  CoChanges.calculate_correlations_mem_and_sorted _ _ _

/-- Witness for C1 on one commit touching two files: the produced pair record
meets the threshold and its pair is a key of the co-occurrence matrix. -/
theorem CoChanges.correlation_formula_threshold_sorted_witness :
    (0 : ℚ) ≤ (CoChanges.CorrRec.mk (str "a") (str "b") 1 1 1 1).correlation ∧
    ((str "a", str "b"), 1) ∈
      (CoChanges.build_co_occurrence_matrix [[str "a", str "b"]]).1 := by
  have hb : CoChanges.build_co_occurrence_matrix [[str "a", str "b"]] =
      ([((str "a", str "b"), 1)], [(str "a", 1), (str "b", 1)]) := by decide
  have hmem : CoChanges.CorrRec.mk (str "a") (str "b") 1 1 1 1 ∈
      CoChanges.calculate_correlations
        (CoChanges.build_co_occurrence_matrix [[str "a", str "b"]]).1
        (CoChanges.build_co_occurrence_matrix [[str "a", str "b"]]).2 0 := by
    rw [hb]
    norm_num [CoChanges.calculate_correlations, lookup, List.insertionSort,
      List.orderedInsert, List.filterMap_cons,
      (by decide : str "a" ≠ str "b"), (by decide : str "b" ≠ str "a")]
  have h := (CoChanges.correlation_formula_threshold_sorted
    [[str "a", str "b"]] 0).1 _ hmem
  exact ⟨h.2.2.2.2, h.2.2.1⟩

theorem Ownership.upsert_map_fst (f : Ownership.AuthorData → Ownership.AuthorData)
    (a : Str) :
    ∀ m : List (Str × Ownership.AuthorData),
      (Ownership.upsert f m a).map Prod.fst =
        if a ∈ m.map Prod.fst then m.map Prod.fst
        else m.map Prod.fst ++ [a] := by
  intro m
  induction m with
  | nil => simp [Ownership.upsert]
  | cons p rest ih =>
    obtain ⟨a0, d⟩ := p
    by_cases h : a0 = a
    · subst h
      simp [Ownership.upsert]
    · simp only [Ownership.upsert, if_neg h, List.map_cons, ih]
      split_ifs with h1 h2 h3 <;> simp_all [List.mem_cons]

theorem Ownership.upsert_fst_nodup
    {f : Ownership.AuthorData → Ownership.AuthorData} {a : Str}
    {m : List (Str × Ownership.AuthorData)} (hm : (m.map Prod.fst).Nodup) :
    ((Ownership.upsert f m a).map Prod.fst).Nodup := by
  rw [Ownership.upsert_map_fst]
  split_ifs with h
  · exact hm
  · rw [List.nodup_append]
    exact ⟨hm, List.nodup_singleton a, by simpa using h⟩

theorem Ownership.mem_upsert_fst
    {f : Ownership.AuthorData → Ownership.AuthorData} {a b : Str}
    {m : List (Str × Ownership.AuthorData)} :
    b ∈ (Ownership.upsert f m a).map Prod.fst ↔
      b ∈ m.map Prod.fst ∨ b = a := by
  rw [Ownership.upsert_map_fst]
  split_ifs with h
  · constructor
    · exact Or.inl
    · rintro (hb | rfl)
      · exact hb
      · exact h
  · simp [List.mem_append]

theorem Ownership.authorData_fold_keys (w : Int → ℚ) :
    ∀ (commits : List Ownership.Commit)
      (m : List (Str × Ownership.AuthorData)),
      (m.map Prod.fst).Nodup →
      ((commits.foldl
          (fun acc c =>
            Ownership.upsert (Ownership.updateAuthor w c.days_ago) acc
              c.author) m).map Prod.fst).Nodup ∧
      ∀ a : Str,
        a ∈ (commits.foldl
            (fun acc c =>
              Ownership.upsert (Ownership.updateAuthor w c.days_ago) acc
                c.author) m).map Prod.fst ↔
          a ∈ m.map Prod.fst ∨ a ∈ commits.map (fun c => c.author) := by
  intro commits
  induction commits with
  | nil =>
    intro m hm
    exact ⟨hm, by simp⟩
  | cons c cs ih =>
    intro m hm
    simp only [List.foldl_cons]
    obtain ⟨h1, h2⟩ := ih _ (Ownership.upsert_fst_nodup hm)
    refine ⟨h1, fun a => ?_⟩
    rw [h2 a, Ownership.mem_upsert_fst]
    simp only [List.map_cons, List.mem_cons]
    tauto

theorem Ownership.authorData_keys (w : Int → ℚ)
    (commits : List Ownership.Commit) :
    ((Ownership.authorData w commits).map Prod.fst).Nodup ∧
    ∀ a : Str, a ∈ (Ownership.authorData w commits).map Prod.fst ↔
      a ∈ commits.map (fun c => c.author) := by
  obtain ⟨h1, h2⟩ :=
    Ownership.authorData_fold_keys w commits [] List.nodup_nil
  exact ⟨h1, fun a => by simpa using h2 a⟩

theorem Ownership.classify_iff (q : ℚ) :
    (Ownership.classify q = str "primary" ↔ 40 ≤ q) ∧
    (Ownership.classify q = str "secondary" ↔ 20 ≤ q ∧ q < 40) ∧
    (Ownership.classify q = str "historical" ↔ q < 20) := by
  unfold Ownership.classify
  split_ifs with h1 h2
  · refine ⟨by simp [h1], ?_, ?_⟩
    · exact ⟨fun h => absurd h (by decide), fun h => absurd h1 (by linarith [h.2])⟩
    · exact ⟨fun h => absurd h (by decide), fun h => absurd h1 (by linarith)⟩
  · refine ⟨?_, ?_, ?_⟩
    · exact ⟨fun h => absurd h (by decide), fun h => absurd h h1⟩
    · exact ⟨fun _ => ⟨h2, not_le.mp h1⟩, fun _ => rfl⟩
    · exact ⟨fun h => absurd h (by decide), fun h => absurd h2 (not_le.mpr h)⟩
  · refine ⟨?_, ?_, ?_⟩
    · exact ⟨fun h => absurd h (by decide), fun h => absurd h h1⟩
    · exact ⟨fun h => absurd h (by decide), fun h => absurd h.1 h2⟩
    · exact ⟨fun _ => not_le.mp h2, fun _ => rfl⟩

/-- C9: calculate_file_ownership returns the empty list exactly when the
total weighted score is zero (in particular on the empty commit list);
otherwise it returns one record per distinct author of the commits, sorted in
non-increasing order of ownership_pct, with classification "primary" iff
ownership_pct is at least 40, "secondary" iff it is in [20, 40), and
"historical" iff it is below 20.  The theorem holds for every rational-valued
recency weight function w. -/
theorem Ownership.file_ownership_spec (w : Int → ℚ)
    (commits : List Ownership.Commit) :
    (Ownership.calculate_file_ownership w commits = [] ↔
      ((Ownership.authorData w commits).map
        (fun p => p.2.weighted_score)).sum = 0) ∧
    Ownership.calculate_file_ownership w [] = [] ∧
    (((Ownership.authorData w commits).map
        (fun p => p.2.weighted_score)).sum ≠ 0 →
      (((Ownership.calculate_file_ownership w commits).map
          (fun r => r.author)).Nodup ∧
        ∀ a : Str,
          a ∈ (Ownership.calculate_file_ownership w commits).map
              (fun r => r.author) ↔
            a ∈ commits.map (fun c => c.author))) ∧
    List.Sorted (fun x y => y.ownership_pct ≤ x.ownership_pct)
      (Ownership.calculate_file_ownership w commits) ∧
    (∀ r ∈ Ownership.calculate_file_ownership w commits,
      (r.classification = str "primary" ↔ 40 ≤ r.ownership_pct) ∧
      (r.classification = str "secondary" ↔
        20 ≤ r.ownership_pct ∧ r.ownership_pct < 40) ∧
      (r.classification = str "historical" ↔ r.ownership_pct < 20)) := by
  haveI instTot : IsTotal Ownership.OwnershipRec
      (fun x y => y.ownership_pct ≤ x.ownership_pct) :=
    ⟨fun a b => le_total b.ownership_pct a.ownership_pct⟩
  haveI instTrans : IsTrans Ownership.OwnershipRec
      (fun x y => y.ownership_pct ≤ x.ownership_pct) :=
    ⟨fun _ _ _ hab hbc => le_trans hbc hab⟩
  refine ⟨?_, ?_, ?_, ?_, ?_⟩
  · simp only [Ownership.calculate_file_ownership]
    by_cases htot : ((Ownership.authorData w commits).map
        (fun p => p.2.weighted_score)).sum = 0
    · rw [if_pos htot]
      exact ⟨fun _ => htot, fun _ => rfl⟩
    · rw [if_neg htot]
      constructor
      · intro h
        exfalso
        have hlen := congrArg List.length h
        rw [List.length_insertionSort, List.length_map] at hlen
        have hdata : Ownership.authorData w commits = [] :=
          List.length_eq_zero.mp hlen
        rw [hdata] at htot
        simp at htot
      · intro h
        exact absurd h htot
  · simp [Ownership.calculate_file_ownership, Ownership.authorData]
  · intro htot
    simp only [Ownership.calculate_file_ownership]
    rw [if_neg htot]
    have hmapmap : ∀ l : List (Str × Ownership.AuthorData),
        ∀ g : Str × Ownership.AuthorData → Ownership.OwnershipRec,
        (∀ p, (g p).author = p.1) →
        (l.map g).map (fun r => r.author) = l.map Prod.fst := by
      intro l g hg
      rw [List.map_map]
      exact List.map_congr_left (fun p _ => hg p)
    constructor
    · have h1 := (Ownership.authorData_keys w commits).1
      have hp := (List.perm_insertionSort
        (fun x y => y.ownership_pct ≤ x.ownership_pct)
        ((Ownership.authorData w commits).map (fun p =>
          Ownership.OwnershipRec.mk p.1 p.2.raw_commits p.2.weighted_score
            (p.2.weighted_score /
              ((Ownership.authorData w commits).map
                (fun q => q.2.weighted_score)).sum * 100)
            (Ownership.classify
              (p.2.weighted_score /
                ((Ownership.authorData w commits).map
                  (fun q => q.2.weighted_score)).sum * 100))
            p.2.last_commit_days))).map (fun r => r.author)
      rw [hmapmap _ _ (fun p => rfl)] at hp
      exact hp.nodup_iff.mpr h1
    · intro a
      have hp := (List.perm_insertionSort
        (fun x y => y.ownership_pct ≤ x.ownership_pct)
        ((Ownership.authorData w commits).map (fun p =>
          Ownership.OwnershipRec.mk p.1 p.2.raw_commits p.2.weighted_score
            (p.2.weighted_score /
              ((Ownership.authorData w commits).map
                (fun q => q.2.weighted_score)).sum * 100)
            (Ownership.classify
              (p.2.weighted_score /
                ((Ownership.authorData w commits).map
                  (fun q => q.2.weighted_score)).sum * 100))
            p.2.last_commit_days))).map (fun r => r.author)
      rw [hmapmap _ _ (fun p => rfl)] at hp
      rw [hp.mem_iff]
      exact (Ownership.authorData_keys w commits).2 a
  · simp only [Ownership.calculate_file_ownership]
    by_cases htot : ((Ownership.authorData w commits).map
        (fun p => p.2.weighted_score)).sum = 0
    · rw [if_pos htot]
      exact List.sorted_nil
    · rw [if_neg htot]
      exact List.sorted_insertionSort _ _
  · intro r hr
    simp only [Ownership.calculate_file_ownership] at hr
    by_cases htot : ((Ownership.authorData w commits).map
        (fun p => p.2.weighted_score)).sum = 0
    · rw [if_pos htot] at hr
      exact absurd hr (List.not_mem_nil r)
    · rw [if_neg htot] at hr
      rw [List.mem_insertionSort, List.mem_map] at hr
      obtain ⟨p, _, rfl⟩ := hr
      exact Ownership.classify_iff _

/-- Witness for C9 at a concrete weight and commit list: the empty list maps
to the empty result, and a single-author history yields exactly that author,
without duplicates. -/
theorem Ownership.file_ownership_spec_witness :
    Ownership.calculate_file_ownership (fun _ => 1) [] = [] ∧
    ((Ownership.calculate_file_ownership (fun _ => 1)
        [Ownership.Commit.mk (str "alice") 0]).map
      (fun r => r.author)).Nodup ∧
    str "alice" ∈ (Ownership.calculate_file_ownership (fun _ => 1)
        [Ownership.Commit.mk (str "alice") 0]).map (fun r => r.author) := by
  have h := Ownership.file_ownership_spec (fun _ => 1)
    [Ownership.Commit.mk (str "alice") 0]
  have htot : ((Ownership.authorData (fun _ => 1)
      [Ownership.Commit.mk (str "alice") 0]).map
      (fun p => p.2.weighted_score)).sum ≠ 0 := by
    norm_num [Ownership.authorData, Ownership.upsert, Ownership.updateAuthor]
  obtain ⟨hnd, hmem⟩ := h.2.2.1 htot
  exact ⟨h.2.1, hnd, (hmem (str "alice")).mpr (by simp)⟩

theorem Deps.bfsGo_inv (cf ftc : Str → List Str) (depth th mr mc : Nat) :
    ∀ (graph : List (Str × List (Str × Nat))) (visited : List Str)
      (queue : List (Str × Nat)) (processed : Nat),
      (graph.map Prod.fst).Nodup →
      (∀ a ∈ graph.map Prod.fst, a ∈ visited) →
      graph.length ≤ processed →
      processed ≤ mc →
      (∀ p ∈ graph, p.2.length ≤ mr) →
      (((Deps.bfsGo cf ftc depth th mr mc graph visited queue
          processed).map Prod.fst).Nodup ∧
        (Deps.bfsGo cf ftc depth th mr mc graph visited queue
          processed).length ≤ mc ∧
        ∀ p ∈ Deps.bfsGo cf ftc depth th mr mc graph visited queue processed,
          p.2.length ≤ mr) := by
  intro graph visited queue processed
  induction graph, visited, queue, processed using
      Deps.bfsGo.induct cf ftc depth th mr mc with
  | case1 graph visited processed =>
    intro h1 h2 h3 h4 h5
    simp only [Deps.bfsGo]
    exact ⟨h1, h3.trans h4, h5⟩
  | case2 graph visited processed current current_depth rest hlt hmem ih =>
    intro h1 h2 h3 h4 h5
    simp only [Deps.bfsGo]
    rw [if_pos hlt, if_pos hmem]
    exact ih h1 h2 h3 h4 h5
  | case3 graph visited processed current current_depth rest hlt hmem ih =>
    intro h1 h2 h3 h4 h5
    simp only [Deps.bfsGo]
    rw [if_pos hlt, if_neg hmem]
    refine ih ?_ ?_ ?_ ?_ ?_
    · rw [List.map_append, List.nodup_append]
      refine ⟨h1, by simp, ?_⟩
      simp only [List.map_cons, List.map_nil]
      intro a ha hb
      rw [List.mem_singleton] at hb
      subst hb
      exact hmem (h2 a ha)
    · intro a ha
      rw [List.map_append, List.mem_append] at ha
      rcases ha with ha | ha
      · exact List.mem_cons_of_mem _ (h2 a ha)
      · simp only [List.map_cons, List.map_nil, List.mem_singleton] at ha
        subst ha
        exact List.mem_cons_self _ _
    · rw [List.length_append]
      simpa using h3
    · exact hlt
    · intro p hp
      rw [List.mem_append] at hp
      rcases hp with hp | hp
      · exact h5 p hp
      · rw [List.mem_singleton] at hp
        subst hp
        exact List.length_take_le _ _
  | case4 graph visited processed current current_depth rest hlt =>
    intro h1 h2 h3 h4 h5
    simp only [Deps.bfsGo]
    rw [if_neg hlt]
    exact ⟨h1, h3.trans h4, h5⟩

theorem Deps.bfsGo_depth_zero (cf ftc : Str → List Str) (th mr mc : Nat)
    (root : Str) (h : 0 < mc) :
    Deps.bfsGo cf ftc 0 th mr mc [] [] [(root, 0)] 0 =
      [(root, Deps.relatedTo cf ftc th mr root)] := by
  rw [Deps.bfsGo]
  simp [h, Deps.nextQueue, Deps.bfsGo]

/-- C3: build_dependency_graph terminates (it is a total function defined by
well-founded recursion), visits each commit at most once (the keys of the
returned graph are duplicate-free), processes at most max_commits commits
(the graph has at most max_commits entries), caps every related-commit list
at max_results, and enqueues for further traversal only while the current
depth is strictly below the depth limit: at depth limit 0 the graph is
exactly the root entry. -/
theorem Deps.dependency_graph_bfs_bounds (cf ftc : Str → List Str)
    (root : Str) (depth th mr mc : Nat) :
    ((Deps.build_dependency_graph cf ftc root depth th mr mc).map
        Prod.fst).Nodup ∧
    (Deps.build_dependency_graph cf ftc root depth th mr mc).length ≤ mc ∧
    (∀ p ∈ Deps.build_dependency_graph cf ftc root depth th mr mc,
      p.2.length ≤ mr) ∧
    (0 < mc → depth = 0 →
      Deps.build_dependency_graph cf ftc root depth th mr mc =
        [(root, Deps.relatedTo cf ftc th mr root)]) := by
  have h := Deps.bfsGo_inv cf ftc depth th mr mc [] [] [(root, 0)] 0
    (by simp) (by simp) (Nat.le_refl 0) (Nat.zero_le mc) (by simp)
  refine ⟨h.1, h.2.1, h.2.2, ?_⟩
  intro hmc hd
  subst hd
  exact Deps.bfsGo_depth_zero cf ftc th mr mc root hmc

/-- Witness for C3 at concrete parameters (depth 0, caps 20 and 1000). -/
theorem Deps.dependency_graph_bfs_bounds_witness :
    ((Deps.build_dependency_graph (fun _ => []) (fun _ => []) (str "c")
        0 2 20 1000).map Prod.fst).Nodup ∧
    (Deps.build_dependency_graph (fun _ => []) (fun _ => []) (str "c")
        0 2 20 1000).length ≤ 1000 ∧
    Deps.build_dependency_graph (fun _ => []) (fun _ => []) (str "c")
        0 2 20 1000 =
      [(str "c", Deps.relatedTo (fun _ => []) (fun _ => []) 2 20 (str "c"))] := by
  have h := Deps.dependency_graph_bfs_bounds (fun _ => []) (fun _ => [])
    (str "c") 0 2 20 1000
  exact ⟨h.1, h.2.1, h.2.2.2 (by decide) rfl⟩

theorem Worktree.startswith_disjoint {l p q : Str} {a b : Char}
    (hp : p.head? = some a) (hq : q.head? = some b) (hab : a ≠ b)
    (h : Worktree.startswith l p = true) :
    Worktree.startswith l q = false := by
  cases p with
  | nil => simp at hp
  | cons a0 p0 =>
    cases q with
    | nil => simp at hq
    | cons b0 q0 =>
      obtain rfl : a0 = a := by simpa using hp
      obtain rfl : b0 = b := by simpa using hq
      unfold Worktree.startswith at h ⊢
      rw [List.isPrefixOf_iff_prefix] at h
      obtain ⟨t, rfl⟩ := h
      rw [Bool.eq_false_iff]
      intro hq2
      rw [List.isPrefixOf_iff_prefix, List.cons_append,
        List.cons_prefix_cons] at hq2
      exact hab hq2.1.symm

theorem Worktree.startswith_mono {l p q : Str} (hqp : q <+: p)
    (h : Worktree.startswith l p = true) :
    Worktree.startswith l q = true := by
  unfold Worktree.startswith at h ⊢
  rw [List.isPrefixOf_iff_prefix] at h ⊢
  exact hqp.trans h

theorem Worktree.lineStep_path (st : Worktree.ParseState) (l : Str) :
    (Worktree.lineStep st l).path =
      if Worktree.startswith l (str "worktree ") = true then
        strip (l.drop (str "worktree ").length)
      else st.path := by
  unfold Worktree.lineStep
  split_ifs <;> rfl

theorem Worktree.lineStep_branch (st : Worktree.ParseState) (l : Str) :
    (Worktree.lineStep st l).branch =
      if Worktree.startswith l (str "worktree ") = true then st.branch
      else if Worktree.startswith l (str "branch refs/heads/") = true then
        strip (l.drop (str "branch refs/heads/").length)
      else if Worktree.startswith l (str "branch ") = true then []
      else st.branch := by
  unfold Worktree.lineStep
  split_ifs <;> rfl

theorem Worktree.lineStep_commit (st : Worktree.ParseState) (l : Str) :
    (Worktree.lineStep st l).commit =
      if Worktree.startswith l (str "worktree ") = true then st.commit
      else if Worktree.startswith l (str "branch refs/heads/") = true then
        st.commit
      else if Worktree.startswith l (str "branch ") = true then st.commit
      else if Worktree.startswith l (str "commit ") = true then
        strip (l.drop (str "commit ").length)
      else st.commit := by
  unfold Worktree.lineStep
  split_ifs <;> rfl

theorem Worktree.lineStep_locked (st : Worktree.ParseState) (l : Str) :
    (Worktree.lineStep st l).locked =
      if l = str "locked" then true else st.locked := by
  by_cases hl : l = str "locked"
  · subst hl
    have h1 : Worktree.startswith (str "locked") (str "worktree ") = false :=
      by decide
    have h2 : Worktree.startswith (str "locked")
        (str "branch refs/heads/") = false := by decide
    have h3 : Worktree.startswith (str "locked") (str "branch ") = false :=
      by decide
    have h4 : Worktree.startswith (str "locked") (str "commit ") = false :=
      by decide
    simp [Worktree.lineStep, h1, h2, h3, h4]
  · rw [if_neg hl]
    unfold Worktree.lineStep
    split_ifs <;> rfl

theorem Worktree.runBlock_path (b : List Str) :
    ∀ st : Worktree.ParseState,
      (Worktree.runBlock st b).path =
        match b.reverse.find?
            (fun l => Worktree.startswith l (str "worktree ")) with
        | some l => strip (l.drop (str "worktree ").length)
        | none => st.path := by
  induction b with
  | nil => intro st; simp [Worktree.runBlock]
  | cons l bs ih =>
    intro st
    show (Worktree.runBlock (Worktree.lineStep st l) bs).path = _
    rw [ih, List.reverse_cons, List.find?_append]
    cases hfind : bs.reverse.find?
        (fun l => Worktree.startswith l (str "worktree ")) with
    | some l2 => simp
    | none =>
      simp only [Option.none_or]
      by_cases hl : Worktree.startswith l (str "worktree ") = true <;>
        simp [List.find?_cons, hl, Worktree.lineStep_path]

theorem Worktree.runBlock_branch (b : List Str) :
    ∀ st : Worktree.ParseState,
      (Worktree.runBlock st b).branch =
        match b.reverse.find?
            (fun l => Worktree.startswith l (str "branch ")) with
        | some l =>
          if Worktree.startswith l (str "branch refs/heads/") = true then
            strip (l.drop (str "branch refs/heads/").length)
          else []
        | none => st.branch := by
  induction b with
  | nil => intro st; simp [Worktree.runBlock]
  | cons l bs ih =>
    intro st
    show (Worktree.runBlock (Worktree.lineStep st l) bs).branch = _
    rw [ih, List.reverse_cons, List.find?_append]
    cases hfind : bs.reverse.find?
        (fun l => Worktree.startswith l (str "branch ")) with
    | some l2 => simp
    | none =>
      simp only [Option.none_or]
      by_cases hl : Worktree.startswith l (str "branch ") = true
      · have hw : Worktree.startswith l (str "worktree ") = false :=
          @Worktree.startswith_disjoint l (str "branch ") (str "worktree ")
            'b' 'w' (by decide) (by decide) (by decide) hl
        simp [List.find?_cons, hl, Worktree.lineStep_branch, hw]
      · have hrefs : Worktree.startswith l (str "branch refs/heads/") =
            false := by
          by_contra hc
          rw [Bool.not_eq_false] at hc
          exact hl (Worktree.startswith_mono (by decide) hc)
        simp [List.find?_cons, hl, Worktree.lineStep_branch, hrefs]

theorem Worktree.runBlock_commit (b : List Str) :
    ∀ st : Worktree.ParseState,
      (Worktree.runBlock st b).commit =
        match b.reverse.find?
            (fun l => Worktree.startswith l (str "commit ")) with
        | some l => strip (l.drop (str "commit ").length)
        | none => st.commit := by
  induction b with
  | nil => intro st; simp [Worktree.runBlock]
  | cons l bs ih =>
    intro st
    show (Worktree.runBlock (Worktree.lineStep st l) bs).commit = _
    rw [ih, List.reverse_cons, List.find?_append]
    cases hfind : bs.reverse.find?
        (fun l => Worktree.startswith l (str "commit ")) with
    | some l2 => simp
    | none =>
      simp only [Option.none_or]
      by_cases hl : Worktree.startswith l (str "commit ") = true
      · have hw : Worktree.startswith l (str "worktree ") = false :=
          @Worktree.startswith_disjoint l (str "commit ") (str "worktree ")
            'c' 'w' (by decide) (by decide) (by decide) hl
        have hbr : Worktree.startswith l (str "branch refs/heads/") =
            false :=
          @Worktree.startswith_disjoint l (str "commit ")
            (str "branch refs/heads/") 'c' 'b' (by decide) (by decide)
            (by decide) hl
        have hb : Worktree.startswith l (str "branch ") = false :=
          @Worktree.startswith_disjoint l (str "commit ") (str "branch ")
            'c' 'b' (by decide) (by decide) (by decide) hl
        simp [List.find?_cons, hl, Worktree.lineStep_commit, hw, hbr, hb]
      · simp [List.find?_cons, hl, Worktree.lineStep_commit]

theorem Worktree.runBlock_locked (b : List Str) :
    ∀ st : Worktree.ParseState,
      (Worktree.runBlock st b).locked =
        (st.locked || Worktree.blockLocked b) := by
  induction b with
  | nil => intro st; simp [Worktree.runBlock, Worktree.blockLocked]
  | cons l bs ih =>
    intro st
    show (Worktree.runBlock (Worktree.lineStep st l) bs).locked = _
    rw [ih, Worktree.lineStep_locked]
    by_cases hl : l = str "locked"
    · subst hl
      simp [Worktree.blockLocked, List.contains_cons]
    · simp [Worktree.blockLocked, List.contains_cons, hl, Ne.symm hl]

theorem Worktree.splitBlocks_ne_nil (lines : List Str) :
    Worktree.splitBlocks lines ≠ [] := by
  cases lines with
  | nil => simp [Worktree.splitBlocks]
  | cons l ls =>
    simp only [Worktree.splitBlocks]
    split_ifs
    · simp
    · rcases h : Worktree.splitBlocks ls with _ | ⟨b, bs⟩ <;> simp

theorem Worktree.parseGo_eq_blocksGo (is_dirty : Str → Bool)
    (main_repo_path : Str) (include_main : Bool) :
    ∀ (lines : List Str) (st : Worktree.ParseState),
      Worktree.parseGo is_dirty main_repo_path include_main st lines =
        Worktree.blocksGo is_dirty main_repo_path include_main st
          (Worktree.splitBlocks lines) := by
  intro lines
  induction lines with
  | nil =>
    intro st
    simp [Worktree.parseGo, Worktree.splitBlocks, Worktree.blocksGo,
      Worktree.runBlock]
  | cons l ls ih =>
    intro st
    by_cases hl : l = ([] : Str)
    · subst hl
      simp only [Worktree.parseGo, if_pos rfl]
      simp only [Worktree.splitBlocks, if_pos rfl]
      rcases hsb : Worktree.splitBlocks ls with _ | ⟨b, bs⟩
      · exact absurd hsb (Worktree.splitBlocks_ne_nil ls)
      · by_cases hp : st.path = ([] : Str)
        · rw [if_pos hp, ih, hsb]
          simp [Worktree.blocksGo, Worktree.runBlock, hp]
        · rw [if_neg hp, ih, hsb]
          simp [Worktree.blocksGo, Worktree.runBlock, hp]
    · simp only [Worktree.parseGo, if_neg hl]
      rw [ih]
      simp only [Worktree.splitBlocks, if_neg hl]
      rcases hsb : Worktree.splitBlocks ls with _ | ⟨b, bs⟩
      · exact absurd hsb (Worktree.splitBlocks_ne_nil ls)
      · cases bs with
        | nil => simp [Worktree.blocksGo, Worktree.runBlock]
        | cons b2 bs2 => simp [Worktree.blocksGo, Worktree.runBlock]

theorem Worktree.flush_runBlock_eq_blockSpec (is_dirty : Str → Bool)
    (main_repo_path : Str) (include_main : Bool) (b : List Str) :
    Worktree.flushState is_dirty main_repo_path include_main
        (Worktree.runBlock Worktree.initState b) =
      Worktree.blockSpec is_dirty main_repo_path include_main b := by
  have hp : (Worktree.runBlock Worktree.initState b).path =
      Worktree.blockPath b := by
    rw [Worktree.runBlock_path]
    unfold Worktree.blockPath
    cases b.reverse.find?
        (fun l => Worktree.startswith l (str "worktree ")) <;>
      simp [Worktree.initState]
  have hb : (Worktree.runBlock Worktree.initState b).branch =
      Worktree.blockBranch b := by
    rw [Worktree.runBlock_branch]
    unfold Worktree.blockBranch
    cases b.reverse.find?
        (fun l => Worktree.startswith l (str "branch ")) <;>
      simp [Worktree.initState]
  have hc : (Worktree.runBlock Worktree.initState b).commit =
      Worktree.blockCommit b := by
    rw [Worktree.runBlock_commit]
    unfold Worktree.blockCommit
    cases b.reverse.find?
        (fun l => Worktree.startswith l (str "commit ")) <;>
      simp [Worktree.initState]
  have hl : (Worktree.runBlock Worktree.initState b).locked =
      Worktree.blockLocked b := by
    rw [Worktree.runBlock_locked]
    simp [Worktree.initState]
  unfold Worktree.flushState Worktree.blockSpec
  rw [hp, hb, hc, hl]

theorem Worktree.runBlock_initState_path (b : List Str) :
    (Worktree.runBlock Worktree.initState b).path = Worktree.blockPath b := by
  rw [Worktree.runBlock_path]
  unfold Worktree.blockPath
  cases b.reverse.find?
      (fun l => Worktree.startswith l (str "worktree ")) <;>
    simp [Worktree.initState]

theorem Worktree.blocksGo_eq_flatMap (is_dirty : Str → Bool)
    (main_repo_path : Str) (include_main : Bool) :
    ∀ bs : List (List Str),
      (∀ b ∈ bs, b = [] ∨ Worktree.blockPath b ≠ ([] : Str)) →
      Worktree.blocksGo is_dirty main_repo_path include_main
          Worktree.initState bs =
        bs.flatMap (Worktree.blockSpec is_dirty main_repo_path
          include_main) := by
  intro bs
  induction bs with
  | nil =>
    intro _
    simp [Worktree.blocksGo]
  | cons b bs2 ih =>
    intro hwf
    cases bs2 with
    | nil =>
      simp [Worktree.blocksGo, Worktree.flush_runBlock_eq_blockSpec]
    | cons b2 bs3 =>
      have hrest : ∀ x ∈ b2 :: bs3, x = [] ∨
          Worktree.blockPath x ≠ ([] : Str) :=
        fun x hx => hwf x (List.mem_cons_of_mem _ hx)
      rcases hwf b (List.mem_cons_self _ _) with rfl | hb
      · simp only [Worktree.blocksGo]
        rw [if_pos (by simp [Worktree.runBlock, Worktree.initState])]
        rw [show Worktree.runBlock Worktree.initState [] =
          Worktree.initState from rfl]
        rw [ih hrest]
        simp [Worktree.blockSpec, Worktree.blockPath]
      · simp only [Worktree.blocksGo]
        rw [if_neg (by rw [Worktree.runBlock_initState_path]; exact hb)]
        rw [Worktree.flush_runBlock_eq_blockSpec, ih hrest]
        simp [List.flatMap_cons]

/-- C2 (amended): for porcelain inputs in which every blank-line-separated
block is either empty or contains a worktree line with a non-empty path (as
the output of git worktree list --porcelain always does),
parse_worktree_list is the block-at-a-time parse: one WorktreeInfo per block
with a non-empty path (skipping the main repository path unless
include_main), whose branch is determined by the last branch line of the
block — the text after "branch refs/heads/" when that line has the prefix,
and empty otherwise (detached HEAD) or when the block has no branch line —
whose commit is the last commit line hash truncated to at most 7 characters
(empty when absent), and which is locked exactly when the block contains a
line equal to "locked". -/
theorem Worktree.parse_worktree_list_eq_blocks (is_dirty : Str → Bool)
    (lines : List Str) (main_repo_path : Str) (include_main : Bool)
    (hwf : ∀ b ∈ Worktree.splitBlocks lines,
      b = [] ∨ Worktree.blockPath b ≠ ([] : Str)) :
    Worktree.parse_worktree_list is_dirty lines main_repo_path include_main =
      Worktree.parseSpec is_dirty lines main_repo_path include_main := by
  unfold Worktree.parse_worktree_list Worktree.parseSpec
  rw [Worktree.parseGo_eq_blocksGo,
    Worktree.blocksGo_eq_flatMap is_dirty main_repo_path include_main
      (Worktree.splitBlocks lines) hwf]

/-- C2 counterexample, refuting the claimed per-block branch rule at two
concrete inputs.  First, in the single block
worktree /p, branch refs/heads/x, branch z — which contains a line with the
"branch refs/heads/" prefix whose following text is "x" — the parser reports
an empty branch, because the later line starting with "branch " resets the
state machine branch to empty.  Second, on
branch refs/heads/x, blank, worktree /p the parser reports branch "x" for
the /p worktree even though its block contains no branch line at all,
because a blank line hit while the current path is empty does not reset the
accumulated state. -/
theorem Worktree.parse_worktree_list_branch_counterexample :
    (Worktree.parse_worktree_list (fun _ => false)
        [str "worktree /p", str "branch refs/heads/x", str "branch z"]
        (str "/m") true =
      [Worktree.WorktreeInfo.mk (str "/p") [] [] false false] ∧
    strip ((str "branch refs/heads/x").drop
      (str "branch refs/heads/").length) = str "x" ∧
    str "x" ≠ ([] : Str)) ∧
    (Worktree.parse_worktree_list (fun _ => false)
        [str "branch refs/heads/x", ([] : Str), str "worktree /p"]
        (str "/m") true =
      [Worktree.WorktreeInfo.mk (str "/p") (str "x") [] false false] ∧
    Worktree.blockBranch [str "worktree /p"] = ([] : Str)) := by decide

/-- Witness for C2 (amended) at a concrete porcelain input with a main
worktree, a blank separator, and a locked second worktree; every block of
the input has a non-empty worktree path, discharging the well-formedness
hypothesis. -/
theorem Worktree.parse_worktree_list_eq_blocks_witness :
    Worktree.parse_worktree_list (fun _ => false)
        [str "worktree /a", ([] : Str), str "worktree /b", str "locked"]
        (str "/a") false =
      Worktree.parseSpec (fun _ => false)
        [str "worktree /a", ([] : Str), str "worktree /b", str "locked"]
        (str "/a") false :=
  Worktree.parse_worktree_list_eq_blocks (fun _ => false)
    [str "worktree /a", ([] : Str), str "worktree /b", str "locked"]
    (str "/a") false (by decide)
